import Mathlib

/-!
Verification of the go-mock-server repository (`mock_server.go`) against its
natural-language specification.

The embedding models:
* `Json` — the JSON value space used by `map[string]interface{}` fields
  (numbers are modelled as integers; the configurations of interest use
  integral numbers only);
* `encodeJson` — the output of `encoding/json`'s encoder on such values
  (object fields are emitted in list order; Go iterates a map, whose order
  is immaterial to every property proved here);
* `parseVal` — a fuel-indexed JSON reader modelling `json.Unmarshal`'s
  syntactic acceptance (integer numbers, standard escapes; whitespace
  handled at top level, which covers every encoder output);
* `ApiFormat` / `ResponseFormat` — the two structs of the source;
* `handlerTrace` / `writeStep` — the anonymous `http.HandleFunc` closure as
  a trace of response-writer actions and the `net/http` response-writer
  semantics interpreting such a trace;
* `registerAll` — the registration loop of `main`, with `http.ServeMux`'s
  behaviour of panicking when a pattern is registered twice;
* `listenAddrChars` — the `fmt.Sprintf(":%s", port)` expression of `main`,
  where `port` is a `*int`, so the `%s` verb produces a bad-verb rendering.
-/

namespace MockServer

/-- JSON values as decoded into `interface{}` by `encoding/json`.
Numbers are modelled as integers (`Int`); Go decodes into `float64`, and the
claims under verification only involve integral numbers.  Objects are
association lists; Go's `map[string]interface{}` is unordered, so the list
order is a representation choice. -/
inductive Json where
  | obj (fields : List (String × Json))
  | arr (items : List Json)
  | str (sv : String)
  | num (n : Int)
  | bool (bv : Bool)
  | null
deriving Repr

/-- The struct `ResponseFormat` of `mock_server.go`: status code, header
map, and optional body map (`nil` in Go is `none` here; an empty but
non-nil map is `some []`). -/
structure ResponseFormat where
  status : Int
  headers : List (String × Json)
  body : Option (List (String × Json))
deriving Repr

/-- The struct `ApiFormat` of `mock_server.go`. -/
structure ApiFormat where
  url : String
  method : String
  response : ResponseFormat
  delay : Int
deriving Repr

/-- Decimal digit character, value `d < 10`. -/
def digitChar (k : Nat) : Char := Char.ofNat (48 + k)

/-- Lower-case hexadecimal digit character, value `d < 16`
(Go's `encoding/json` uses lower-case hex in `\u00xx` escapes). -/
def hexChar (d : Nat) : Char := if d < 10 then Char.ofNat (48 + d) else Char.ofNat (87 + d)

/-- Decimal digits of a natural number, most significant first. -/
def encNat (n : Nat) : List Char :=
  if _h : n < 10 then [digitChar n]
  else encNat (n / 10) ++ [digitChar (n % 10)]
decreasing_by omega

/-- Rendering of an integer as emitted by `encoding/json` for an integral
number. -/
def encInt (i : Int) : List Char :=
  if i < 0 then '-' :: encNat i.natAbs else encNat i.natAbs

/-- The four-hex-digit rendering of a code point below `0x10000`. -/
def hex4 (n : Nat) : List Char :=
  [hexChar (n / 4096 % 16), hexChar (n / 256 % 16), hexChar (n / 16 % 16), hexChar (n % 16)]

/-- `\u00xx`-style escape of a character (as emitted by `encoding/json`). -/
def uEscape (c : Char) : List Char := '\\' :: 'u' :: hex4 c.toNat

/-- Escape of one character inside a JSON string, following
`encoding/json`'s encoder with its default HTML escaping (`<`, `>`, `&`
and U+2028/U+2029 become `\u`-escapes). -/
def escChar (c : Char) : List Char :=
  if c = '"' then ['\\', '"']
  else if c = '\\' then ['\\', '\\']
  else if c = '\n' then ['\\', 'n']
  else if c = '\r' then ['\\', 'r']
  else if c = '\t' then ['\\', 't']
  else if c = '<' ∨ c = '>' ∨ c = '&' then uEscape c
  else if c.toNat < 32 then uEscape c
  else if c = ' ' ∨ c = ' ' then uEscape c
  else [c]

/-- JSON string literal contents (without the surrounding quotes). -/
def escString (s : List Char) : List Char := (s.map escChar).flatten

/-- JSON string literal, quotes included. -/
def encStr (s : String) : List Char := '"' :: escString s.data ++ ['"']

mutual

/-- The bytes `encoding/json` emits for a value (object fields in list
order). -/
def encodeJson : Json → List Char
  | .obj fs => '{' :: encodeFields fs ++ ['}']
  | .arr xs => '[' :: encodeItems xs ++ [']']
  | .str s => encStr s
  | .num n => encInt n
  | .bool true => 't' :: 'r' :: 'u' :: 'e' :: []
  | .bool false => 'f' :: 'a' :: 'l' :: 's' :: 'e' :: []
  | .null => 'n' :: 'u' :: 'l' :: 'l' :: []

/-- Comma-separated encodings of array elements. -/
def encodeItems : List Json → List Char
  | x :: y :: rest => encodeJson x ++ ',' :: encodeItems (y :: rest)
  | [x] => encodeJson x
  | [] => []

/-- Comma-separated `"key":value` encodings of object fields. -/
def encodeFields : List (String × Json) → List Char
  | (k, v) :: f :: rest => encStr k ++ ':' :: encodeJson v ++ ',' :: encodeFields (f :: rest)
  | [(k, v)] => encStr k ++ ':' :: encodeJson v
  | [] => []

end

mutual

/-- `fmt.Sprint` rendering of a decoded JSON value held in an
`interface{}`: strings print verbatim, numbers in decimal, booleans as
`true`/`false`, `nil` as `<nil>`, maps as `map[k:v ...]` and slices as
`[v ...]`. -/
def fmtSprint : Json → String
  | .obj fs => "map[" ++ fmtMap fs ++ "]"
  | .arr xs => "[" ++ fmtList xs ++ "]"
  | .str s => s
  | .num n => String.mk (encInt n)
  | .bool true => "true"
  | .bool false => "false"
  | .null => "<nil>"

def fmtList : List Json → String
  | x :: y :: rest => fmtSprint x ++ " " ++ fmtList (y :: rest)
  | [x] => fmtSprint x
  | [] => ""

def fmtMap : List (String × Json) → String
  | (k, v) :: f :: rest => k ++ ":" ++ fmtSprint v ++ " " ++ fmtMap (f :: rest)
  | [(k, v)] => k ++ ":" ++ fmtSprint v
  | [] => ""

end

/-- Actions the `http.HandleFunc` closure performs on its
`http.ResponseWriter` (plus the final `time.Sleep`). -/
inductive WAction where
  | setHeader (k v : String)
  | writeStatus (s : Int)
  | writeBody (bs : List Char)
  | sleep (ms : Int)
deriving Repr, DecidableEq

/-- The bytes `json.NewEncoder(w).Encode(v)` writes: the JSON encoding of
`v` followed by a newline. -/
def goEncoderEncode (v : Json) : List Char := encodeJson v ++ ['\n']

/-- The anonymous handler closure registered by `main` for one `ApiFormat`
(lines 50–63 of `mock_server.go`), as the sequence of actions it performs:
one `w.Header().Set(key, fmt.Sprint(val))` per header entry, then
`w.WriteHeader(status)`, then `json.NewEncoder(w).Encode(body)` when the
body map is non-nil, then `time.Sleep` when `delay > 0`. -/
def handlerTrace (api : ApiFormat) : List WAction :=
  (api.response.headers.map fun kv => WAction.setHeader kv.1 (fmtSprint kv.2))
  ++ [WAction.writeStatus api.response.status]
  ++ (match api.response.body with
      | some b => [WAction.writeBody (goEncoderEncode (Json.obj b))]
      | none => [])
  ++ (if api.delay > 0 then [WAction.sleep api.delay] else [])

/-- The observable HTTP response: status code, headers, body bytes. -/
structure HttpResponse where
  status : Int
  headers : List (String × String)
  body : List Char
deriving Repr, DecidableEq

/-- State of `net/http`'s response writer while a handler runs. -/
structure WriterState where
  headers : List (String × String)
  statusW : Option Int
  body : List Char

/-- `http.Header.Set`: replace any existing value for the key, otherwise
add the entry.  (Go canonicalises header names with MIME casing; header
names are case-insensitive, so the configured name and its canonical form
denote the same header and the canonicalisation is not modelled.) -/
def headerSet (hs : List (String × String)) (k v : String) : List (String × String) :=
  hs.filter (fun p => p.1 ≠ k) ++ [(k, v)]

/-- One step of `net/http` response-writer semantics: header mutations
after `WriteHeader` do not reach the wire, a second `WriteHeader` is
ignored, and a body write before `WriteHeader` implies status 200. -/
def writeStep (st : WriterState) (a : WAction) : WriterState :=
  match a with
  | .setHeader k v =>
      if st.statusW.isSome then st
      else { st with headers := headerSet st.headers k v }
  | .writeStatus s =>
      match st.statusW with
      | some _ => st
      | none => { st with statusW := some s }
  | .writeBody bs =>
      match st.statusW with
      | some _ => { st with body := st.body ++ bs }
      | none => { st with statusW := some 200, body := st.body ++ bs }
  | .sleep _ => st

/-- The HTTP response observed after running a trace of writer actions
(an unset status defaults to 200, as in `net/http`). -/
def runTrace (as : List WAction) : HttpResponse :=
  let st := as.foldl writeStep ⟨[], none, []⟩
  ⟨st.statusW.getD 200, st.headers, st.body⟩

/-- The response the registered handler produces for a matching request
(the closure reads only the captured `api`, never the request). -/
def respond (api : ApiFormat) : HttpResponse := runTrace (handlerTrace api)

/-- The `http.ServeMux` pattern `api.Method + " " + api.Url` built by
`main` (line 50). -/
def patternOf (api : ApiFormat) : String := api.method ++ " " ++ api.url

/-- The registration loop of `main` (lines 48–65): one
`http.HandleFunc(pattern, ...)` per definition, in input order.
`http.ServeMux` panics when a pattern equal to an already-registered one
is registered again ("conflicts with pattern"); the panic is modelled as
`Except.error`. -/
def registerAll : List ApiFormat → List (String × ApiFormat) →
    Except String (List (String × ApiFormat))
  | [], acc => .ok acc
  | api :: rest, acc =>
      if acc.any (fun p => p.1 = patternOf api) then
        .error ("panic: pattern \"" ++ patternOf api ++ "\" conflicts with existing pattern")
      else registerAll rest (acc ++ [(patternOf api, api)])

/-- Lookup in the pattern table: exact match of the `"METHOD /url"`
pattern built by the registration loop. -/
def lookupReg (reg : List (String × ApiFormat)) (m u : String) : Option ApiFormat :=
  (reg.find? (fun p => p.1 = m ++ " " ++ u)).map (fun p => p.2)

/-- `http.ServeMux` handler resolution: the exact method pattern first;
a pattern registered for `GET` also matches `HEAD` requests.  (Path
canonicalisation and trailing-slash redirects are outside the spec's
exact-path model and are not modelled.) -/
def muxFind (reg : List (String × ApiFormat)) (m u : String) : Option ApiFormat :=
  match lookupReg reg m u with
  | some api => some api
  | none => if m = "HEAD" then lookupReg reg "GET" u else none

/-- The methods of the registered patterns whose path is `u`
(registration order; `ServeMux.matchingMethods`). -/
def methodsFor (reg : List (String × ApiFormat)) (u : String) : List String :=
  (reg.filter (fun p => p.2.url = u)).map (fun p => p.2.method)

/-- Ordered insertion for the sorted `Allow` list. -/
def insertStr (s : String) : List String → List String
  | [] => [s]
  | t :: ts => if s ≤ t then s :: t :: ts else t :: insertStr s ts

/-- Insertion sort of method names (`ServeMux` sorts the allowed
methods before joining them). -/
def sortStrings : List String → List String
  | [] => []
  | s :: ss => insertStr s (sortStrings ss)

/-- Comma-space join, as `strings.Join(methods, ", ")`. -/
def joinComma : List String → String
  | [] => ""
  | [s] => s
  | s :: t :: r => s ++ ", " ++ joinComma (t :: r)

/-- The value of the `Allow` header `ServeMux` sends with a 405: the
distinct matching methods, sorted and comma-joined. -/
def allowValue (ms : List String) : String := joinComma (sortStrings ms.dedup)

/-- The response `http.ServeMux` writes for a request matching no
registered pattern under any method: `http.NotFound`, status 404. -/
def notFoundResponse : HttpResponse :=
  { status := 404
    headers := [("Content-Type", "text/plain; charset=utf-8"),
                ("X-Content-Type-Options", "nosniff")]
    body := "404 page not found\n".data }

/-- The response `http.ServeMux` writes when the path matches a pattern
registered under a different method only: status 405 with an `Allow`
header, body written by `http.Error`. -/
def methodNotAllowedResponse (allow : String) : HttpResponse :=
  { status := 405
    headers := [("Allow", allow),
                ("Content-Type", "text/plain; charset=utf-8"),
                ("X-Content-Type-Options", "nosniff")]
    body := "Method Not Allowed\n".data }

/-- Request dispatch as `http.ServeMux.findHandler` performs it: the
matched definition's handler on a hit (including `HEAD` served by a `GET`
pattern); otherwise 405 Method Not Allowed when the path is registered
under other methods, else `http.NotFound`.  (For a `HEAD` hit the handler
writes the same bytes; the transport discarding the body on the wire for
`HEAD` is not modelled.) -/
def serve (reg : List (String × ApiFormat)) (m u : String) : HttpResponse :=
  match muxFind reg m u with
  | some api => respond api
  | none =>
      if methodsFor reg u = [] then notFoundResponse
      else methodNotAllowedResponse (allowValue (methodsFor reg u))

/-- The rendering `fmt` produces for the `%s` verb applied to a `*int`
(a bad-verb rendering around the pointer's hexadecimal address, which is
runtime-dependent and therefore a parameter here). -/
def badVerbSIntPtr (ptrHex : List Char) : List Char :=
  "%!s(*int=".data ++ ptrHex ++ [')']

/-- The listen address `fmt.Sprintf(":%s", port)` computed at line 67 of
`mock_server.go`, where `port` is the `*int` returned by `flag.Int`. -/
def listenAddrChars (ptrHex : List Char) : List Char :=
  ':' :: badVerbSIntPtr ptrHex

/-- A string of the form `":<decimal port>"`: a colon followed by a
non-empty run of decimal digits. -/
def isPortForm (s : List Char) : Prop :=
  ∃ ds, s = ':' :: ds ∧ ds ≠ [] ∧ ∀ c ∈ ds, c.isDigit

/-- Modelled from the spec: an Event of §3 — the Go source in `src/` has
no Event Notifier (it lives in the repository's other reference
implementation), so events are modelled from §3/§4.2: a name from the
fixed vocabulary, free-form string attributes, and a success/failure
classification. -/
structure Event where
  name : String
  attrs : List (String × String)
  success : Bool
deriving Repr, DecidableEq

/-- Modelled from the spec: the events `dispatch` emits for one request
per §4.2 — when no endpoint handler runs (a miss), `request.not_found`
with `{method, url}`; on a hit, `request.started` with `{method, url}`
then `request.handled` with `{method, url, status}`, the event's status
being success iff the HTTP status is below 400. -/
def dispatchEvents (reg : List (String × ApiFormat)) (m u : String) : List Event :=
  match muxFind reg m u with
  | none => [⟨"request.not_found", [("method", m), ("url", u)], false⟩]
  | some api =>
      [⟨"request.started", [("method", m), ("url", u)], true⟩,
       ⟨"request.handled",
        [("method", m), ("url", u), ("status", String.mk (encInt api.response.status))],
        decide (api.response.status < 400)⟩]

/-- An observer: receives an event and may raise (`Except.error`). -/
def Observer : Type := Event → Except String Unit

/-- Modelled from the spec: `notify` per §4.4 — any error raised inside an
observer is caught at the Notifier boundary and reported (returned here as
a logged message), never re-raised to the dispatcher. -/
def notifyOne (o : Observer) (e : Event) : Option String :=
  match o e with
  | .ok _ => none
  | .error msg => some msg

/-- Modelled from the spec: notifying every attached observer of one
event, collecting the caught error messages. -/
def notifyAll (obs : List Observer) (e : Event) : List (Option String) :=
  obs.map (fun o => notifyOne o e)

/-- Modelled from the spec: dispatch with an attached observer list —
the served response together with, per emitted event, the caught results
of notifying each observer (§4.2 + §4.4). -/
def dispatchWithObservers (reg : List (String × ApiFormat)) (obs : List Observer)
    (m u : String) : HttpResponse × List (List (Option String)) :=
  (serve reg m u, (dispatchEvents reg m u).map (fun e => notifyAll obs e))

/-- Numeric value of a hexadecimal digit character, `none` otherwise. -/
def hexVal (c : Char) : Option Nat :=
  if c ≤ '9' ∧ '0' ≤ c then some (c.toNat - 48)
  else if 'a' ≤ c ∧ c ≤ 'f' then some (c.toNat - 87)
  else if 'A' ≤ c ∧ c ≤ 'F' then some (c.toNat - 55)
  else none

/-- The character denoted by a single-character JSON escape (`\n`, `\"`,
...), `none` for an invalid escape. -/
def escVal (c : Char) : Option Char :=
  if c = '"' then some '"'
  else if c = '\\' then some '\\'
  else if c = '/' then some '/'
  else if c = 'b' then some (Char.ofNat 8)
  else if c = 'f' then some (Char.ofNat 12)
  else if c = 'n' then some '\n'
  else if c = 'r' then some '\r'
  else if c = 't' then some '\t'
  else none

/-- Reader for the contents of a JSON string literal, after the opening
quote: returns the decoded characters and the input after the closing
quote. -/
def parseStrBody : List Char → Option (List Char × List Char)
  | [] => none
  | c :: rest =>
      if c = '"' then some ([], rest)
      else if c = '\\' then
        match rest with
        | [] => none
        | e :: rest' =>
            if e = 'u' then
              match rest' with
              | h1 :: h2 :: h3 :: h4 :: rest'' =>
                  match hexVal h1, hexVal h2, hexVal h3, hexVal h4 with
                  | some a, some b, some c', some d =>
                      (parseStrBody rest'').map
                        (fun p => (Char.ofNat (((a * 16 + b) * 16 + c') * 16 + d) :: p.1, p.2))
                  | _, _, _, _ => none
              | _ => none
            else
              match escVal e with
              | some c' => (parseStrBody rest').map (fun p => (c' :: p.1, p.2))
              | none => none
      else (parseStrBody rest).map (fun p => (c :: p.1, p.2))

/-- Greedy decimal-digit reader with accumulator. -/
def takeDigits : List Char → Nat → Nat × List Char
  | [], acc => (acc, [])
  | c :: rest, acc =>
      if c.isDigit then takeDigits rest (acc * 10 + (c.toNat - 48))
      else (acc, c :: rest)

/-- Reader for a non-empty run of decimal digits. -/
def parseDigits : List Char → Option (Nat × List Char)
  | [] => none
  | c :: rest =>
      if c.isDigit then some (takeDigits rest (c.toNat - 48))
      else none

/-- Reader for `value (, value)* ]` — the tail of a non-empty array —
parameterised by the reader `pv` used for one value. -/
def parseItemsF (pv : List Char → Option (Json × List Char)) :
    Nat → List Char → Option (List Json × List Char)
  | 0, _ => none
  | fuel + 1, input =>
      match pv input with
      | none => none
      | some (v, r) =>
          match r with
          | ',' :: r' =>
              match parseItemsF pv fuel r' with
              | some (vs, r'') => some (v :: vs, r'')
              | none => none
          | ']' :: r' => some ([v], r')
          | _ => none

/-- Reader for `"key": value (, "key": value)* }` — the tail of a
non-empty object — parameterised by the reader `pv` used for one value. -/
def parseFieldsF (pv : List Char → Option (Json × List Char)) :
    Nat → List Char → Option (List (String × Json) × List Char)
  | 0, _ => none
  | fuel + 1, input =>
      match input with
      | '"' :: rest =>
          match parseStrBody rest with
          | none => none
          | some (k, r) =>
              match r with
              | ':' :: r' =>
                  match pv r' with
                  | none => none
                  | some (v, r'') =>
                      match r'' with
                      | ',' :: r3 =>
                          match parseFieldsF pv fuel r3 with
                          | some (fs, r4) => some ((String.mk k, v) :: fs, r4)
                          | none => none
                      | '}' :: r3 => some ([(String.mk k, v)], r3)
                      | _ => none
              | _ => none
      | _ => none

/-- Fuel-indexed JSON value reader modelling `json.Unmarshal`'s syntactic
layer on the fragment the encoder emits (integer numbers, standard
escapes; no interior whitespace, which covers every encoder output). -/
def parseVal : Nat → List Char → Option (Json × List Char)
  | 0, _ => none
  | fuel + 1, input =>
      match input with
      | [] => none
      | c :: rest =>
        if c = 'n' then
          match rest with
          | 'u' :: 'l' :: 'l' :: r => some (.null, r)
          | _ => none
        else if c = 't' then
          match rest with
          | 'r' :: 'u' :: 'e' :: r => some (.bool true, r)
          | _ => none
        else if c = 'f' then
          match rest with
          | 'a' :: 'l' :: 's' :: 'e' :: r => some (.bool false, r)
          | _ => none
        else if c = '"' then
          (parseStrBody rest).map (fun p => (.str (String.mk p.1), p.2))
        else if c = '[' then
          if rest.head? = some ']' then some (.arr [], rest.tail)
          else (parseItemsF (fun s => parseVal fuel s) fuel rest).map (fun p => (.arr p.1, p.2))
        else if c = '{' then
          if rest.head? = some '}' then some (.obj [], rest.tail)
          else (parseFieldsF (fun s => parseVal fuel s) fuel rest).map (fun p => (.obj p.1, p.2))
        else if c = '-' then
          (parseDigits rest).map (fun p => (.num (-(p.1 : Int)), p.2))
        else
          (parseDigits (c :: rest)).map (fun p => (.num (p.1 : Int), p.2))

/-- JSON whitespace. -/
def isWs (c : Char) : Bool := c = '\x0d' ∨ c = '\t' ∨ c = ' ' ∨ c = '\n'

/-- Drop leading JSON whitespace. -/
def skipWs (s : List Char) : List Char := s.dropWhile isWs

/-- Top-level JSON document reader modelling `json.Unmarshal`'s syntactic
acceptance: one value, surrounded by optional whitespace, nothing after
it.  The fuel `length + 1` dominates the recursion depth of any parse. -/
def decodeJson (s : List Char) : Option Json :=
  let t := skipWs s
  match parseVal (t.length + 1) t with
  | some (j, rest) => if skipWs rest = [] then some j else none
  | none => none

/-- Field lookup in a decoded JSON object, as `encoding/json` assigns
struct fields: keys processed in order, a later duplicate overwriting an
earlier one (exact-name tag matching; Go's case-insensitive fallback is
not needed by the configurations modelled). -/
def getField (fs : List (String × Json)) (k : String) : Option Json :=
  ((fs.filter (fun p => p.1 = k)).getLast?).map (fun p => p.2)

/-- Decoding a JSON value into a Go `string` field: absent or `null`
leaves the zero value, a string is taken verbatim, anything else is an
`UnmarshalTypeError`. -/
def decodeStringField (v : Option Json) : Except String String :=
  match v with
  | none => .ok ""
  | some .null => .ok ""
  | some (.str s) => .ok s
  | some _ => .error "json: cannot unmarshal value into Go struct field of type string"

/-- Decoding a JSON value into a Go `int` field. -/
def decodeIntField (v : Option Json) : Except String Int :=
  match v with
  | none => .ok 0
  | some .null => .ok 0
  | some (.num n) => .ok n
  | some _ => .error "json: cannot unmarshal value into Go struct field of type int"

/-- Decoding a JSON value into a Go `map[string]interface{}` field,
distinguishing nil (absent/`null`) from a present map. -/
def decodeMapField (v : Option Json) : Except String (Option (List (String × Json))) :=
  match v with
  | none => .ok none
  | some .null => .ok none
  | some (.obj fs) => .ok (some fs)
  | some _ => .error "json: cannot unmarshal value into Go struct field of type map"

/-- Decoding one JSON value into a `ResponseFormat` struct. -/
def decodeResponse (v : Option Json) : Except String ResponseFormat :=
  match v with
  | none => .ok ⟨0, [], none⟩
  | some .null => .ok ⟨0, [], none⟩
  | some (.obj fs) => do
      let status ← decodeIntField (getField fs "status")
      let headers ← decodeMapField (getField fs "headers")
      let body ← decodeMapField (getField fs "body")
      .ok ⟨status, headers.getD [], body⟩
  | some _ => .error "json: cannot unmarshal value into Go struct field of type ResponseFormat"

/-- Decoding one JSON value into an `ApiFormat` struct. -/
def decodeApi (v : Json) : Except String ApiFormat :=
  match v with
  | .obj fs => do
      let url ← decodeStringField (getField fs "url")
      let method ← decodeStringField (getField fs "method")
      let response ← decodeResponse (getField fs "response")
      let delay ← decodeIntField (getField fs "delay")
      .ok ⟨url, method, response, delay⟩
  | .null => .ok ⟨"", "", ⟨0, [], none⟩, 0⟩
  | _ => .error "json: cannot unmarshal value into Go value of type ApiFormat"

/-- Decoding a JSON document into `[]ApiFormat`: the top-level value must
be an array (or `null`, which leaves the nil slice). -/
def decodeApis (v : Json) : Except String (List ApiFormat) :=
  match v with
  | .arr xs => xs.mapM decodeApi
  | .null => .ok []
  | _ => .error "json: cannot unmarshal value into Go value of type []ApiFormat"

/-- The call `json.Unmarshal(file, &apis)` of line 47: the decoded slice
together with the returned error.  On failure the slice keeps its initial
empty value. -/
def goUnmarshalApis (bytes : List Char) : List ApiFormat × Option String :=
  match decodeJson bytes with
  | none => ([], some "invalid character: not a JSON document")
  | some j =>
      match decodeApis j with
      | .ok apis => (apis, none)
      | .error e => ([], some e)

/-- The observable startup behaviour of `main` after the config file's
bytes are read (lines 44–67): the `json.Unmarshal` error is discarded
(line 47 ignores the return value), the definitions are registered, and —
unless registration panicked — execution reaches the
`http.ListenAndServe` call. -/
structure StartupOutcome where
  parseError : Option String
  apis : List ApiFormat
  registration : Except String (List (String × ApiFormat))
  reachesListen : Bool
deriving Repr

/-- The startup path of `main` on given config bytes. -/
def startup (bytes : List Char) : StartupOutcome :=
  let (apis, perr) := goUnmarshalApis bytes
  let reg := registerAll apis []
  { parseError := perr
    apis := apis
    registration := reg
    reachesListen := reg.isOk }

/-- The head of the input is not a decimal digit (so a greedy number parse
cannot run past a value boundary). -/
def headNotDigit : List Char → Prop
  | [] => True
  | c :: _ => c.isDigit = false

mutual

/-- Recursion-depth measure of a JSON value: an upper bound on the fuel
`parseVal` consumes reading its encoding. -/
def jm : Json → Nat
  | .obj fs => jmFields fs + 1
  | .arr xs => jmItems xs + 1
  | .str _ => 1
  | .num _ => 1
  | .bool _ => 1
  | .null => 1

/-- Measure of an array tail. -/
def jmItems : List Json → Nat
  | x :: xs => jm x + jmItems xs + 1
  | [] => 0

/-- Measure of an object tail. -/
def jmFields : List (String × Json) → Nat
  | kv :: fs => jm kv.2 + jmFields fs + 1
  | [] => 0

end

/-- The spec's §8 example endpoint:
`{url:"/ping", method:"GET", response:{status:200, headers:{"X-Test":"1"}, body:{"ok":true}}, delay:0}`. -/
def pingApi : ApiFormat :=
  ⟨"/ping", "GET", ⟨200, [("X-Test", Json.str "1")], some [("ok", Json.bool true)]⟩, 0⟩

/-- A second definition for the same `(method, url)` key with a different
status. -/
def pingApi2 : ApiFormat :=
  ⟨"/ping", "GET", ⟨201, [], none⟩, 0⟩

/-- A definition with a positive delay. -/
def slowApi : ApiFormat :=
  ⟨"/slow", "GET", ⟨204, [], none⟩, 250⟩

/-- A definition with a negative decoded delay. -/
def negDelayApi : ApiFormat :=
  ⟨"/neg", "GET", ⟨204, [], none⟩, -5⟩

/-- A registry with the `/ping` endpoint registered. -/
def pingReg : List (String × ApiFormat) := [("GET /ping", pingApi)]

/-! ### Digit and number lemmas -/

theorem digitChar_isDigit : ∀ d, d < 10 → (digitChar d).isDigit = true := by decide

theorem digitChar_toNat : ∀ d, d < 10 → (digitChar d).toNat = 48 + d := by decide

theorem hexVal_hexChar : ∀ d, d < 16 → hexVal (hexChar d) = some d := by decide

theorem encNat_ne_nil (n : Nat) : encNat n ≠ [] := by
  rw [encNat]
  split <;> simp

theorem encNat_digits (n : Nat) : ∀ c ∈ encNat n, c.isDigit = true := by
  induction n using Nat.strongRecOn with
  | ind n ih =>
    intro c hmem
    rw [encNat] at hmem
    split at hmem
    · rw [List.mem_singleton] at hmem
      subst hmem
      exact digitChar_isDigit n (by omega)
    · rcases List.mem_append.mp hmem with hL | hR
      · exact ih (n / 10) (by omega) c hL
      · rw [List.mem_singleton] at hR
        subst hR
        exact digitChar_isDigit _ (by omega)

theorem foldl_encNat (n acc : Nat) :
    (encNat n).foldl (fun acc ch => acc * 10 + (ch.toNat - 48)) acc
      = acc * 10 ^ (encNat n).length + n := by
  induction n using Nat.strongRecOn generalizing acc with
  | ind n ih =>
    rw [show encNat n = if _h : n < 10 then [digitChar n]
      else encNat (n / 10) ++ [digitChar (n % 10)] from by rw [encNat]]
    split
    · rw [List.foldl_cons, List.foldl_nil, List.length_singleton, pow_one,
        digitChar_toNat n (by omega)]
      omega
    · rw [List.foldl_append, List.foldl_cons, List.foldl_nil,
        ih (n / 10) (by omega), List.length_append, List.length_singleton,
        digitChar_toNat (n % 10) (by omega), pow_succ]
      have : acc * (10 ^ (encNat (n / 10)).length * 10)
          = acc * 10 ^ (encNat (n / 10)).length * 10 := by ring
      omega

theorem takeDigits_append (ds : List Char) (hds : ∀ c ∈ ds, c.isDigit = true) :
    ∀ rest acc, takeDigits (ds ++ rest) acc
      = takeDigits rest (ds.foldl (fun acc ch => acc * 10 + (ch.toNat - 48)) acc) := by
  induction ds with
  | nil => intro rest acc; rw [List.nil_append, List.foldl_nil]
  | cons c cs ih =>
    intro rest acc
    rw [List.cons_append, takeDigits, List.foldl_cons,
      if_pos (hds c (List.mem_cons_self _ _)), ih (fun c hc => hds c (List.mem_cons_of_mem _ hc))]

theorem takeDigits_stops (rest : List Char) (acc : Nat) (h : headNotDigit rest) :
    takeDigits rest acc = (acc, rest) := by
  cases rest with
  | nil => rfl
  | cons c cs =>
    rw [takeDigits, if_neg]
    rw [headNotDigit] at h
    simp [h]

theorem parseDigits_encNat (n : Nat) (rest : List Char) (h : headNotDigit rest) :
    parseDigits (encNat n ++ rest) = some (n, rest) := by
  obtain ⟨d, ds, hds⟩ : ∃ d ds, encNat n = d :: ds := by
    cases hcase : encNat n with
    | nil => exact absurd hcase (encNat_ne_nil n)
    | cons d ds => exact ⟨d, ds, rfl⟩
  have hd : d.isDigit = true := encNat_digits n d (by rw [hds]; exact List.mem_cons_self _ _)
  have hdigs : ∀ c ∈ ds, c.isDigit = true := fun c hc =>
    encNat_digits n c (by rw [hds]; exact List.mem_cons_of_mem _ hc)
  have hfold := foldl_encNat n 0
  rw [hds, List.foldl_cons] at hfold
  simp only [Nat.zero_mul, Nat.zero_add] at hfold
  rw [hds, List.cons_append, parseDigits, if_pos hd,
    takeDigits_append ds hdigs, takeDigits_stops rest _ h, hfold]

/-! ### String-literal round trip -/

theorem parseStrBody_simpleEsc (e c' : Char) (he : escVal e = some c') (hu : e ≠ 'u')
    (t : List Char) :
    parseStrBody ('\\' :: e :: t) = (parseStrBody t).map (fun p => (c' :: p.1, p.2)) := by
  rw [parseStrBody.eq_def]
  simp [hu, he]

theorem parseStrBody_uEscape (c : Char) (h : c.toNat < 65536) (t : List Char) :
    parseStrBody (uEscape c ++ t) = (parseStrBody t).map (fun p => (c :: p.1, p.2)) := by
  have hm1 : c.toNat / 4096 % 16 < 16 := Nat.mod_lt _ (by omega)
  have hm2 : c.toNat / 256 % 16 < 16 := Nat.mod_lt _ (by omega)
  have hm3 : c.toNat / 16 % 16 < 16 := Nat.mod_lt _ (by omega)
  have hm4 : c.toNat % 16 < 16 := Nat.mod_lt _ (by omega)
  have harith : (((c.toNat / 4096 % 16) * 16 + (c.toNat / 256 % 16)) * 16
      + (c.toNat / 16 % 16)) * 16 + (c.toNat % 16) = c.toNat := by omega
  simp only [uEscape, hex4, List.cons_append, List.nil_append]
  rw [parseStrBody.eq_def]
  simp [hexVal_hexChar _ hm1, hexVal_hexChar _ hm2, hexVal_hexChar _ hm3,
    hexVal_hexChar _ hm4, harith, Char.ofNat_toNat]

theorem parseStrBody_roundtrip (s : List Char) : ∀ rest : List Char,
    parseStrBody (escString s ++ '"' :: rest) = some (s, rest) := by
  induction s with
  | nil =>
    intro rest
    simp only [escString, List.map_nil, List.flatten_nil, List.nil_append]
    rw [parseStrBody.eq_def]
    simp
  | cons c cs ih =>
    intro rest
    have hT := ih rest
    simp only [escString, List.map_cons, List.flatten_cons, List.append_assoc] at hT ⊢
    rw [escChar]
    split_ifs with h1 h2 h3 h4 h5 h6 h7 h8
    · subst h1
      rw [List.cons_append, List.cons_append, List.nil_append,
        parseStrBody_simpleEsc '"' '"' (by decide) (by decide), hT]
      rfl
    · subst h2
      rw [List.cons_append, List.cons_append, List.nil_append,
        parseStrBody_simpleEsc '\\' '\\' (by decide) (by decide), hT]
      rfl
    · subst h3
      rw [List.cons_append, List.cons_append, List.nil_append,
        parseStrBody_simpleEsc 'n' '\n' (by decide) (by decide), hT]
      rfl
    · subst h4
      rw [List.cons_append, List.cons_append, List.nil_append,
        parseStrBody_simpleEsc 'r' '\r' (by decide) (by decide), hT]
      rfl
    · subst h5
      rw [List.cons_append, List.cons_append, List.nil_append,
        parseStrBody_simpleEsc 't' '\t' (by decide) (by decide), hT]
      rfl
    · rcases h6 with rfl | rfl | rfl <;>
        rw [parseStrBody_uEscape _ (by decide), hT] <;> rfl
    · rw [parseStrBody_uEscape _ (by omega), hT]
      rfl
    · rcases h8 with rfl | rfl <;>
        rw [parseStrBody_uEscape _ (by decide), hT] <;> rfl
    · rw [List.cons_append, List.nil_append, parseStrBody.eq_def]
      simp [h1, h2, hT]

/-! ### Heads of encodings and measure facts -/

theorem jm_pos (j : Json) : 1 ≤ jm j := by
  cases j <;> simp [jm]

theorem isDigit_not_special (c : Char) (h : c.isDigit = true) :
    c ≠ ']' ∧ c ≠ '}' ∧ isWs c = false := by
  have hc : 48 ≤ c.toNat ∧ c.toNat ≤ 57 := by
    rw [Char.isDigit] at h
    simp only [Bool.and_eq_true, decide_eq_true_eq] at h
    exact ⟨h.1, h.2⟩
  refine ⟨?_, ?_, ?_⟩
  · rintro rfl; revert h; decide
  · rintro rfl; revert h; decide
  · rw [isWs]
    have h1 : c ≠ ' ' := by rintro rfl; revert h; decide
    have h2 : c ≠ '\t' := by rintro rfl; revert h; decide
    have h3 : c ≠ '\n' := by rintro rfl; revert h; decide
    have h4 : c ≠ '\x0d' := by rintro rfl; revert h; decide
    simp [h1, h2, h3, h4]

theorem encodeJson_head (j : Json) :
    ∃ e es, encodeJson j = e :: es ∧ e ≠ ']' ∧ e ≠ '}' ∧ isWs e = false := by
  cases j with
  | null => refine ⟨'n', _, rfl, ?_, ?_, ?_⟩ <;> decide
  | bool b =>
    cases b with
    | false => refine ⟨'f', _, rfl, ?_, ?_, ?_⟩ <;> decide
    | true => refine ⟨'t', _, rfl, ?_, ?_, ?_⟩ <;> decide
  | num n =>
    show ∃ e es, encInt n = e :: es ∧ _
    rw [encInt]
    split_ifs with hneg
    · exact ⟨'-', _, rfl, by decide, by decide, by decide⟩
    · obtain ⟨d, ds, hds⟩ : ∃ d ds, encNat n.natAbs = d :: ds := by
        cases hcase : encNat n.natAbs with
        | nil => exact absurd hcase (encNat_ne_nil _)
        | cons d ds => exact ⟨d, ds, rfl⟩
      have hd : d.isDigit = true :=
        encNat_digits _ d (by rw [hds]; exact List.mem_cons_self _ _)
      obtain ⟨p1, p2, p3⟩ := isDigit_not_special d hd
      exact ⟨d, ds, hds, p1, p2, p3⟩
  | str s => refine ⟨'"', _, rfl, ?_, ?_, ?_⟩ <;> decide
  | arr xs => refine ⟨'[', _, rfl, ?_, ?_, ?_⟩ <;> decide
  | obj fs => refine ⟨'{', _, rfl, ?_, ?_, ?_⟩ <;> decide

theorem encodeItems_head (x : Json) (xs : List Json) :
    ∃ e es, encodeItems (x :: xs) = e :: es ∧ e ≠ ']' ∧ e ≠ '}' ∧ isWs e = false := by
  obtain ⟨e, es, henc, p1, p2, p3⟩ := encodeJson_head x
  cases xs with
  | nil => exact ⟨e, es, by rw [encodeItems, henc], p1, p2, p3⟩
  | cons y ys =>
    exact ⟨e, es ++ ',' :: encodeItems (y :: ys),
      by rw [encodeItems, henc, List.cons_append], p1, p2, p3⟩

theorem encodeFields_cons (k : String) (v : Json) (fs : List (String × Json)) :
    ∃ t, encodeFields ((k, v) :: fs) = '"' :: t := by
  cases fs with
  | nil =>
    exact ⟨(escString k.data ++ ['"']) ++ ':' :: encodeJson v,
      by rw [encodeFields, encStr]; simp [List.cons_append, List.append_assoc]⟩
  | cons f fs' =>
    exact ⟨(escString k.data ++ ['"'] ++ ':' :: encodeJson v) ++ ',' :: encodeFields (f :: fs'),
      by rw [encodeFields, encStr]; simp [List.cons_append, List.append_assoc]⟩

/-! ### Parser round trip -/

theorem headNotDigit_cons (c : Char) (cs : List Char) (h : c.isDigit = false) :
    headNotDigit (c :: cs) := h

theorem length_le_jmItems (xs : List Json) : xs.length ≤ jmItems xs := by
  induction xs with
  | nil => simp [jmItems]
  | cons x xs ih => rw [jmItems]; simp only [List.length_cons]; omega

theorem jm_mem_items (x : Json) (xs : List Json) (h : x ∈ xs) : jm x ≤ jmItems xs := by
  induction xs with
  | nil => cases h
  | cons y ys ih =>
    rw [jmItems]
    rcases List.mem_cons.mp h with rfl | h'
    · omega
    · have := ih h'; omega

theorem length_le_jmFields (fs : List (String × Json)) : fs.length ≤ jmFields fs := by
  induction fs with
  | nil => simp [jmFields]
  | cons f fs ih =>
    obtain ⟨k, v⟩ := f
    rw [jmFields]; simp only [List.length_cons]; omega

theorem jm_mem_fields (kv : String × Json) (fs : List (String × Json)) (h : kv ∈ fs) :
    jm kv.2 ≤ jmFields fs := by
  induction fs with
  | nil => cases h
  | cons f fs ih =>
    obtain ⟨k, v⟩ := f
    rw [jmFields]
    rcases List.mem_cons.mp h with rfl | h'
    · have : jm (k, v).2 = jm v := rfl
      omega
    · have := ih h'; omega

theorem parseVal_succ (fuel : Nat) (input : List Char) :
    parseVal (fuel+1) input =
      match input with
      | [] => none
      | c :: rest =>
        if c = 'n' then
          match rest with
          | 'u' :: 'l' :: 'l' :: r => some (.null, r)
          | _ => none
        else if c = 't' then
          match rest with
          | 'r' :: 'u' :: 'e' :: r => some (.bool true, r)
          | _ => none
        else if c = 'f' then
          match rest with
          | 'a' :: 'l' :: 's' :: 'e' :: r => some (.bool false, r)
          | _ => none
        else if c = '"' then
          (parseStrBody rest).map (fun p => (.str (String.mk p.1), p.2))
        else if c = '[' then
          if rest.head? = some ']' then some (.arr [], rest.tail)
          else (parseItemsF (fun s => parseVal fuel s) fuel rest).map (fun p => (.arr p.1, p.2))
        else if c = '{' then
          if rest.head? = some '}' then some (.obj [], rest.tail)
          else (parseFieldsF (fun s => parseVal fuel s) fuel rest).map (fun p => (.obj p.1, p.2))
        else if c = '-' then
          (parseDigits rest).map (fun p => (.num (-(p.1 : Int)), p.2))
        else
          (parseDigits (c :: rest)).map (fun p => (.num (p.1 : Int), p.2)) := rfl

theorem parseItemsF_succ (pv : List Char → Option (Json × List Char)) (fuel : Nat)
    (input : List Char) :
    parseItemsF pv (fuel+1) input =
      match pv input with
      | none => none
      | some (v, r) =>
          match r with
          | ',' :: r' =>
              match parseItemsF pv fuel r' with
              | some (vs, r'') => some (v :: vs, r'')
              | none => none
          | ']' :: r' => some ([v], r')
          | _ => none := rfl

theorem parseFieldsF_succ (pv : List Char → Option (Json × List Char)) (fuel : Nat)
    (input : List Char) :
    parseFieldsF pv (fuel+1) input =
      match input with
      | '"' :: rest =>
          match parseStrBody rest with
          | none => none
          | some (k, r) =>
              match r with
              | ':' :: r' =>
                  match pv r' with
                  | none => none
                  | some (v, r'') =>
                      match r'' with
                      | ',' :: r3 =>
                          match parseFieldsF pv fuel r3 with
                          | some (fs, r4) => some ((String.mk k, v) :: fs, r4)
                          | none => none
                      | '}' :: r3 => some ([(String.mk k, v)], r3)
                      | _ => none
              | _ => none
      | _ => none := rfl

theorem parseItemsF_encode (pv : List Char → Option (Json × List Char)) :
    ∀ (xs : List Json), xs ≠ [] →
    (∀ x ∈ xs, ∀ r : List Char, headNotDigit r → pv (encodeJson x ++ r) = some (x, r)) →
    ∀ (fuel : Nat) (rest : List Char), xs.length ≤ fuel → headNotDigit rest →
      parseItemsF pv fuel (encodeItems xs ++ ']' :: rest) = some (xs, rest) := by
  intro xs
  induction xs with
  | nil => intro h; exact absurd rfl h
  | cons x xs' ih =>
    intro _ hx fuel rest hlen hrest
    cases fuel with
    | zero => simp at hlen
    | succ fuel =>
      rw [parseItemsF_succ]
      cases xs' with
      | nil =>
        rw [encodeItems, hx x (List.mem_cons_self _ _) (']' :: rest)
          (headNotDigit_cons _ _ (by decide))]
        rfl
      | cons y ys =>
        rw [encodeItems]
        simp only [List.cons_append, List.append_assoc]
        rw [hx x (List.mem_cons_self _ _) (',' :: (encodeItems (y :: ys) ++ ']' :: rest))
          (headNotDigit_cons _ _ (by decide))]
        show (match parseItemsF pv fuel (encodeItems (y :: ys) ++ ']' :: rest) with
          | some (vs, r'') => some (x :: vs, r'')
          | none => none) = some (x :: y :: ys, rest)
        rw [ih (List.cons_ne_nil _ _) (fun z hz => hx z (List.mem_cons_of_mem _ hz)) fuel rest
          (by simp only [List.length_cons] at hlen ⊢; omega) hrest]

theorem parseFieldsF_encode (pv : List Char → Option (Json × List Char)) :
    ∀ (fs : List (String × Json)), fs ≠ [] →
    (∀ kv ∈ fs, ∀ r : List Char, headNotDigit r → pv (encodeJson kv.2 ++ r) = some (kv.2, r)) →
    ∀ (fuel : Nat) (rest : List Char), fs.length ≤ fuel → headNotDigit rest →
      parseFieldsF pv fuel (encodeFields fs ++ '}' :: rest) = some (fs, rest) := by
  intro fs
  induction fs with
  | nil => intro h; exact absurd rfl h
  | cons kv fs' ih =>
    obtain ⟨k, v⟩ := kv
    obtain ⟨kd⟩ := k
    intro _ hx fuel rest hlen hrest
    cases fuel with
    | zero => simp at hlen
    | succ fuel =>
      rw [parseFieldsF_succ]
      cases fs' with
      | nil =>
        rw [encodeFields, encStr]
        simp only [List.cons_append, List.append_assoc, List.nil_append]
        rw [parseStrBody_roundtrip]
        show (match pv (encodeJson v ++ '}' :: rest) with
          | none => none
          | some (v', r'') =>
              match r'' with
              | ',' :: r3 =>
                  match parseFieldsF pv fuel r3 with
                  | some (fs, r4) => some ((String.mk kd, v') :: fs, r4)
                  | none => none
              | '}' :: r3 => some ([(String.mk kd, v')], r3)
              | _ => none) = some ([(String.mk kd, v)], rest)
        rw [hx (String.mk kd, v) (List.mem_cons_self _ _) ('}' :: rest)
          (headNotDigit_cons _ _ (by decide))]
        rfl
      | cons f fs'' =>
        rw [encodeFields, encStr]
        simp only [List.cons_append, List.append_assoc, List.nil_append]
        rw [parseStrBody_roundtrip]
        show (match pv (encodeJson v ++ ',' :: (encodeFields (f :: fs'') ++ '}' :: rest)) with
          | none => none
          | some (v', r'') =>
              match r'' with
              | ',' :: r3 =>
                  match parseFieldsF pv fuel r3 with
                  | some (fs, r4) => some ((String.mk kd, v') :: fs, r4)
                  | none => none
              | '}' :: r3 => some ([(String.mk kd, v')], r3)
              | _ => none) = some ((String.mk kd, v) :: f :: fs'', rest)
        rw [hx (String.mk kd, v) (List.mem_cons_self _ _)
          (',' :: (encodeFields (f :: fs'') ++ '}' :: rest))
          (headNotDigit_cons _ _ (by decide))]
        show (match parseFieldsF pv fuel (encodeFields (f :: fs'') ++ '}' :: rest) with
          | some (fs, r4) => some ((String.mk kd, v) :: fs, r4)
          | none => none) = some ((String.mk kd, v) :: f :: fs'', rest)
        rw [ih (List.cons_ne_nil _ _) (fun z hz => hx z (List.mem_cons_of_mem _ hz)) fuel rest
          (by simp only [List.length_cons] at hlen ⊢; omega) hrest]

theorem jm_arr (xs : List Json) : jm (Json.arr xs) = jmItems xs + 1 := by
  rw [jm]

theorem jm_obj (fs : List (String × Json)) : jm (Json.obj fs) = jmFields fs + 1 := by
  rw [jm]

theorem parseVal_encode : ∀ (fuel : Nat) (j : Json) (rest : List Char),
    jm j ≤ fuel → headNotDigit rest →
    parseVal fuel (encodeJson j ++ rest) = some (j, rest) := by
  intro fuel
  induction fuel with
  | zero =>
    intro j rest hjm _
    have := jm_pos j
    omega
  | succ fuel ih =>
    intro j rest hjm hrest
    cases j with
    | null => rfl
    | bool b => cases b <;> rfl
    | num n =>
      show parseVal (fuel+1) (encInt n ++ rest) = some (.num n, rest)
      rw [encInt]
      split_ifs with hneg
      · rw [List.cons_append]
        show (parseDigits (encNat n.natAbs ++ rest)).map
            (fun p => (Json.num (-(p.1 : Int)), p.2)) = some (.num n, rest)
        rw [parseDigits_encNat _ _ hrest]
        have hab : -((n.natAbs : Nat) : Int) = n := by omega
        show some (Json.num (-((n.natAbs : Nat) : Int)), rest) = some (Json.num n, rest)
        rw [hab]
      · obtain ⟨d, ds, hds⟩ : ∃ d ds, encNat n.natAbs = d :: ds := by
          cases hcase : encNat n.natAbs with
          | nil => exact absurd hcase (encNat_ne_nil _)
          | cons d ds => exact ⟨d, ds, rfl⟩
        have hd : d.isDigit = true :=
          encNat_digits _ d (by rw [hds]; exact List.mem_cons_self _ _)
        have hn' : d ≠ 'n' := by rintro rfl; revert hd; decide
        have ht' : d ≠ 't' := by rintro rfl; revert hd; decide
        have hf' : d ≠ 'f' := by rintro rfl; revert hd; decide
        have hq' : d ≠ '"' := by rintro rfl; revert hd; decide
        have hb' : d ≠ '[' := by rintro rfl; revert hd; decide
        have hc' : d ≠ '{' := by rintro rfl; revert hd; decide
        have hm' : d ≠ '-' := by rintro rfl; revert hd; decide
        rw [hds, List.cons_append, parseVal_succ]
        simp only [hn', ht', hf', hq', hb', hc', hm', if_false, if_neg]
        rw [← List.cons_append, ← hds, parseDigits_encNat _ _ hrest]
        have hab : ((n.natAbs : Nat) : Int) = n := by omega
        simp [hab]
    | str s =>
      obtain ⟨sd⟩ := s
      rw [parseVal_succ]
      simp [encodeJson, encStr, parseStrBody_roundtrip]
    | arr xs =>
      cases xs with
      | nil => rfl
      | cons x xs' =>
        obtain ⟨e, es, hitems, hne1, hne2, hnw⟩ := encodeItems_head x xs'
        have hjm' : jmItems (x :: xs') ≤ fuel := by rw [jm_arr] at hjm; omega
        rw [parseVal_succ]
        simp only [encodeJson, List.cons_append, List.append_assoc, List.nil_append]
        rw [hitems]
        simp only [List.cons_append]
        simp only [reduceIte]
        simp [hne1]
        rw [← List.cons_append, ← hitems,
          parseItemsF_encode (fun s => parseVal fuel s) (x :: xs') (List.cons_ne_nil _ _)
            (fun z hz r hr => ih z r (by have := jm_mem_items z _ hz; omega) hr)
            fuel rest (le_trans (length_le_jmItems _) hjm') hrest]
    | obj fs =>
      cases fs with
      | nil => rfl
      | cons kv fs' =>
        obtain ⟨k, v⟩ := kv
        obtain ⟨t, hfields⟩ := encodeFields_cons k v fs'
        have hjm' : jmFields ((k, v) :: fs') ≤ fuel := by rw [jm_obj] at hjm; omega
        rw [parseVal_succ]
        simp only [encodeJson, List.cons_append, List.append_assoc, List.nil_append]
        rw [hfields]
        simp only [List.cons_append]
        simp
        rw [← List.cons_append, ← hfields,
          parseFieldsF_encode (fun s => parseVal fuel s) ((k, v) :: fs') (List.cons_ne_nil _ _)
            (fun z hz r hr => ih z.2 r (by have := jm_mem_fields z _ hz; omega) hr)
            fuel rest (le_trans (length_le_jmFields _) hjm') hrest]

theorem jm_le_enc_all : ∀ n : Nat,
    (∀ j, jm j ≤ n → jm j ≤ (encodeJson j).length) ∧
    (∀ xs, xs ≠ [] → jmItems xs ≤ n → jmItems xs ≤ (encodeItems xs).length + 1) ∧
    (∀ fs, fs ≠ [] → jmFields fs ≤ n → jmFields fs ≤ (encodeFields fs).length + 1) := by
  intro n
  induction n with
  | zero =>
    refine ⟨fun j hj => absurd hj (by have := jm_pos j; omega), ?_, ?_⟩
    · intro xs hne hj
      cases xs with
      | nil => exact absurd rfl hne
      | cons x xs =>
        have e1 : jmItems (x :: xs) = jm x + jmItems xs + 1 := rfl
        omega
    · intro fs hne hj
      cases fs with
      | nil => exact absurd rfl hne
      | cons kv fs =>
        obtain ⟨k, v⟩ := kv
        have e1 : jmFields ((k, v) :: fs) = jm v + jmFields fs + 1 := rfl
        omega
  | succ n ihn =>
    obtain ⟨ihj, ihi, ihf⟩ := ihn
    refine ⟨?_, ?_, ?_⟩
    · intro j hj
      cases j with
      | null => decide
      | bool b => cases b <;> decide
      | num m =>
        show (1 : Nat) ≤ (encInt m).length
        rw [encInt]
        have hpos : 0 < (encNat m.natAbs).length :=
          List.length_pos.mpr (encNat_ne_nil _)
        split_ifs
        · simp only [List.length_cons]; omega
        · omega
      | str s =>
        show (1 : Nat) ≤ ('"' :: (escString s.data ++ ['"'])).length
        simp only [List.length_cons]
        omega
      | arr xs =>
        cases xs with
        | nil => decide
        | cons x xs' =>
          have e1 : jm (Json.arr (x :: xs')) = jmItems (x :: xs') + 1 := rfl
          have h2 := ihi (x :: xs') (List.cons_ne_nil _ _) (by omega)
          show jmItems (x :: xs') + 1 ≤ ('[' :: (encodeItems (x :: xs') ++ [']'])).length
          simp only [List.length_cons, List.length_append, List.length_singleton]
          omega
      | obj fs =>
        cases fs with
        | nil => decide
        | cons kv fs' =>
          have e1 : jm (Json.obj (kv :: fs')) = jmFields (kv :: fs') + 1 := rfl
          have h2 := ihf (kv :: fs') (List.cons_ne_nil _ _) (by omega)
          show jmFields (kv :: fs') + 1 ≤ ('{' :: (encodeFields (kv :: fs') ++ ['}'])).length
          simp only [List.length_cons, List.length_append, List.length_singleton]
          omega
    · intro xs hne hj
      cases xs with
      | nil => exact absurd rfl hne
      | cons x xs' =>
        have e1 : jmItems (x :: xs') = jm x + jmItems xs' + 1 := rfl
        have hx := ihj x (by omega)
        cases xs' with
        | nil =>
          have e2 : jmItems ([] : List Json) = 0 := rfl
          have e3 : encodeItems [x] = encodeJson x := rfl
          rw [e1, e2, e3]
          omega
        | cons y ys =>
          have e3 : encodeItems (x :: y :: ys) = encodeJson x ++ ',' :: encodeItems (y :: ys) := rfl
          have e4 : jmItems (y :: ys) = jm y + jmItems ys + 1 := rfl
          have h2 := ihi (y :: ys) (List.cons_ne_nil _ _) (by omega)
          rw [e1, e3]
          simp only [List.length_append, List.length_cons]
          omega
    · intro fs hne hj
      cases fs with
      | nil => exact absurd rfl hne
      | cons kv fs' =>
        obtain ⟨k, v⟩ := kv
        have e1 : jmFields ((k, v) :: fs') = jm v + jmFields fs' + 1 := rfl
        have hv := ihj v (by omega)
        cases fs' with
        | nil =>
          have e2 : jmFields ([] : List (String × Json)) = 0 := rfl
          have e3 : encodeFields [(k, v)] = encStr k ++ ':' :: encodeJson v := rfl
          rw [e1, e2, e3]
          simp only [List.length_append, List.length_cons]
          omega
        | cons f fs'' =>
          obtain ⟨k2, v2⟩ := f
          have e3 : encodeFields ((k, v) :: (k2, v2) :: fs'')
              = encStr k ++ ':' :: encodeJson v ++ ',' :: encodeFields ((k2, v2) :: fs'') := rfl
          have e4 : jmFields ((k2, v2) :: fs'') = jm v2 + jmFields fs'' + 1 := rfl
          have h2 := ihf ((k2, v2) :: fs'') (List.cons_ne_nil _ _) (by omega)
          rw [e1, e3]
          simp only [List.length_append, List.length_cons]
          omega

theorem skipWs_cons_of_not (c : Char) (cs : List Char) (h : isWs c = false) :
    skipWs (c :: cs) = c :: cs := by
  simp [skipWs, List.dropWhile_cons, h]

/-- The decoder reads back exactly what `json.NewEncoder(w).Encode` wrote:
the round trip at the heart of the body-equivalence property. -/
theorem decodeJson_goEncode (j : Json) : decodeJson (goEncoderEncode j) = some j := by
  obtain ⟨e, es, henc, _, _, hnw⟩ := encodeJson_head j
  have hjm : jm j ≤ (encodeJson j).length := (jm_le_enc_all (jm j)).1 j le_rfl
  have hskip : skipWs (encodeJson j ++ ['\n']) = encodeJson j ++ ['\n'] := by
    rw [henc, List.cons_append]
    exact skipWs_cons_of_not _ _ hnw
  rw [goEncoderEncode, decodeJson]
  simp only [hskip]
  rw [parseVal_encode _ j ['\n']
    (by simp only [List.length_append, List.length_singleton]; omega)
    (headNotDigit_cons _ _ (by decide))]
  rfl

/-! ### Handler trace semantics -/

theorem foldl_setHeaders (kvs : List (String × Json)) : ∀ hdrs : List (String × String),
    (kvs.map fun kv => WAction.setHeader kv.1 (fmtSprint kv.2)).foldl writeStep
        ⟨hdrs, none, []⟩
      = ⟨kvs.foldl (fun acc kv => headerSet acc kv.1 (fmtSprint kv.2)) hdrs, none, []⟩ := by
  induction kvs with
  | nil => intro hdrs; rfl
  | cons kv rest ih =>
    intro hdrs
    rw [List.map_cons, List.foldl_cons, List.foldl_cons]
    exact ih (headerSet hdrs kv.1 (fmtSprint kv.2))

/-- Closed form of the response the handler writes: the configured status,
the headers produced by the `Set` loop, and the encoder output (with its
newline) when the body is non-nil. -/
theorem respond_eq (api : ApiFormat) :
    respond api =
      { status := api.response.status
        headers := api.response.headers.foldl
          (fun acc kv => headerSet acc kv.1 (fmtSprint kv.2)) []
        body := match api.response.body with
                | some b => goEncoderEncode (Json.obj b)
                | none => [] } := by
  rw [respond, runTrace, handlerTrace]
  simp only [List.foldl_append]
  rw [foldl_setHeaders]
  cases hb : api.response.body <;> split_ifs <;> rfl

theorem headerSet_mem (hs : List (String × String)) (k v : String) :
    (k, v) ∈ headerSet hs k v := by
  simp [headerSet]

theorem headerSet_preserve (hs : List (String × String)) (k v k' v' : String)
    (h : (k, v) ∈ hs) (hne : k ≠ k') : (k, v) ∈ headerSet hs k' v' := by
  simp only [headerSet, List.mem_append]
  left
  simp [List.mem_filter, h, hne]

theorem foldl_headerSet_preserve (kvs : List (String × Json)) (k v : String)
    (hk : ∀ kv ∈ kvs, kv.1 ≠ k) : ∀ init : List (String × String), (k, v) ∈ init →
    (k, v) ∈ kvs.foldl (fun acc kv => headerSet acc kv.1 (fmtSprint kv.2)) init := by
  induction kvs with
  | nil => intro init h; exact h
  | cons kv rest ih =>
    intro init hmem
    rw [List.foldl_cons]
    exact ih (fun z hz => hk z (List.mem_cons_of_mem _ hz)) _
      (headerSet_preserve _ _ _ _ _ hmem (hk kv (List.mem_cons_self _ _)).symm)

theorem mem_foldl_headerSet (kvs : List (String × Json)) (k : String) (v : Json)
    (hmem : (k, v) ∈ kvs) (hnd : (kvs.map Prod.fst).Nodup) : ∀ init,
    (k, fmtSprint v) ∈ kvs.foldl (fun acc kv => headerSet acc kv.1 (fmtSprint kv.2)) init := by
  induction kvs with
  | nil => cases hmem
  | cons kv' rest ih =>
    intro init
    rw [List.map_cons, List.nodup_cons] at hnd
    rw [List.foldl_cons]
    rcases List.mem_cons.mp hmem with heq | hmem'
    · subst heq
      refine foldl_headerSet_preserve rest k (fmtSprint v) ?_ _ (headerSet_mem _ _ _)
      intro z hz hzk
      apply hnd.1
      have hzm : z.1 ∈ List.map Prod.fst rest := List.mem_map_of_mem Prod.fst hz
      rw [hzk] at hzm
      exact hzm
    · exact ih hmem' hnd.2 _

/-! ### Registration -/

theorem registerAll_isOk (l : List ApiFormat) : ∀ acc : List (String × ApiFormat),
    (registerAll l acc).isOk = true ↔
      ((l.map patternOf).Nodup ∧ ∀ p ∈ l.map patternOf, p ∉ acc.map Prod.fst) := by
  induction l with
  | nil =>
    intro acc
    simp [registerAll, Except.isOk, Except.toBool]
  | cons api rest ih =>
    intro acc
    rw [registerAll]
    split_ifs with hdup
    · rw [List.any_eq_true] at hdup
      obtain ⟨p, hp, hpe⟩ := hdup
      rw [decide_eq_true_eq] at hpe
      simp only [Except.isOk, Except.toBool]
      constructor
      · intro h; cases h
      · rintro ⟨-, hall⟩
        exact absurd (by rw [← hpe]; exact List.mem_map_of_mem Prod.fst hp)
          (hall (patternOf api) (by simp))
    · rw [ih]
      have hnodup : patternOf api ∉ acc.map Prod.fst := by
        intro hmem
        rw [List.mem_map] at hmem
        obtain ⟨p, hp, hpe⟩ := hmem
        exact hdup (List.any_eq_true.mpr ⟨p, hp, by rw [decide_eq_true_eq, hpe]⟩)
      simp only [List.map_cons, List.nodup_cons, List.map_append, List.mem_cons,
        List.mem_append, List.map_map]
      constructor
      · rintro ⟨hnd, hall⟩
        refine ⟨⟨fun hmem => (hall _ hmem) (Or.inr (Or.inl rfl)), hnd⟩, ?_⟩
        rintro p (rfl | hp)
        · exact hnodup
        · exact fun hA => (hall p hp) (Or.inl hA)
      · rintro ⟨⟨hhead, hnd⟩, hall⟩
        refine ⟨hnd, ?_⟩
        intro p hp
        rintro (hA | rfl | hF)
        · exact hall p (Or.inr hp) hA
        · exact hhead hp
        · simp at hF

theorem registerAll_ok_of_nodup (l : List ApiFormat) : ∀ acc : List (String × ApiFormat),
    (l.map patternOf).Nodup → (∀ p ∈ l.map patternOf, p ∉ acc.map Prod.fst) →
    registerAll l acc = .ok (acc ++ l.map fun a => (patternOf a, a)) := by
  induction l with
  | nil => intro acc _ _; simp [registerAll]
  | cons api rest ih =>
    intro acc hnd hall
    rw [registerAll]
    split_ifs with hdup
    · rw [List.any_eq_true] at hdup
      obtain ⟨p, hp, hpe⟩ := hdup
      rw [decide_eq_true_eq] at hpe
      exact absurd (by rw [← hpe]; exact List.mem_map_of_mem Prod.fst hp)
        (hall (patternOf api) (by simp))
    · rw [List.map_cons, List.nodup_cons] at hnd
      rw [ih (acc ++ [(patternOf api, api)]) hnd.2 ?_]
      · rw [List.map_cons, List.append_assoc, List.singleton_append]
      · intro p hp
        simp only [List.map_append, List.mem_append, List.map_cons, List.map_nil,
          List.mem_singleton]
        rintro (hA | hpe)
        · exact hall p (List.mem_cons_of_mem _ hp) hA
        · rw [hpe] at hp
          exact hnd.1 hp

/-! ### Dispatch helpers -/

theorem serve_hit (reg : List (String × ApiFormat)) (m u : String) (api : ApiFormat)
    (h : lookupReg reg m u = some api) : serve reg m u = respond api := by
  simp only [serve, muxFind, h]

theorem serve_unmatched (reg : List (String × ApiFormat)) (m u : String)
    (h : muxFind reg m u = none) :
    serve reg m u
      = if methodsFor reg u = [] then notFoundResponse
        else methodNotAllowedResponse (allowValue (methodsFor reg u)) := by
  simp only [serve, h]

/-! ### Claim theorems -/

/-- C1 (counterexample): for the concrete configuration sequence
`[pingApi, pingApi2]`, whose two definitions share the key
`(GET, /ping)`, registry construction does **not** complete: the second
`http.HandleFunc` call panics, refuting last-registration-wins. -/
theorem c1_counterexample :
    registerAll [pingApi, pingApi2] []
      = Except.error "panic: pattern \"GET /ping\" conflicts with existing pattern" := by
  rfl

/-- C1 (amended): registry construction completes exactly when the
`(method, url)` keys are pairwise distinct — `http.ServeMux` panics on the
first duplicate pattern, so a sequence containing duplicates never
completes and no definition replaces an earlier one; on a duplicate-free
sequence every definition is registered under its own key, in input
order. -/
theorem c1_register_amended (apis : List ApiFormat) :
    ((registerAll apis []).isOk = true ↔ (apis.map patternOf).Nodup)
    ∧ ((apis.map patternOf).Nodup →
        registerAll apis [] = .ok (apis.map fun a => (patternOf a, a))) := by
  constructor
  · rw [registerAll_isOk]
    simp
  · intro hnd
    rw [registerAll_ok_of_nodup apis [] hnd (by simp)]
    rw [List.nil_append]

/-- C1 (witness): the amended theorem evaluated at a concrete
duplicate-free sequence and at a concrete duplicated sequence. -/
theorem c1_register_amended_witness :
    registerAll [pingApi, slowApi] []
        = .ok [("GET /ping", pingApi), ("GET /slow", slowApi)]
    ∧ (registerAll [pingApi, pingApi2] []).isOk = false := by
  constructor
  · exact (c1_register_amended [pingApi, slowApi]).2 (by decide)
  · have h := (c1_register_amended [pingApi, pingApi2]).1
    by_contra hne
    rw [Bool.not_eq_false] at hne
    have := h.mp hne
    revert this
    decide

/-- C2 (code_bug): on config bytes that are not well-formed JSON
(`"not json"`), `json.Unmarshal` reports an error, but line 47 of
`mock_server.go` discards it: `startup` records the parse error yet still
reaches the `http.ListenAndServe` call with an empty registry, so the
error is neither surfaced nor fatal, contradicting the claim. -/
theorem c2_parse_error_ignored :
    (startup "not json".data).parseError.isSome = true
    ∧ (startup "not json".data).apis = []
    ∧ (startup "not json".data).reachesListen = true := by
  refine ⟨rfl, rfl, rfl⟩

/-- C5: when `delay > 0`, the single `time.Sleep` action is the last
action of the handler trace — strictly after the status write (and all
other response writes, which are all in the prefix), never before. -/
theorem c5_delay_after_write (api : ApiFormat) (h : api.delay > 0) :
    ∃ pre, handlerTrace api = pre ++ [WAction.sleep api.delay]
      ∧ (∀ d, WAction.sleep d ∉ pre)
      ∧ WAction.writeStatus api.response.status ∈ pre := by
  refine ⟨(api.response.headers.map fun kv => WAction.setHeader kv.1 (fmtSprint kv.2))
    ++ WAction.writeStatus api.response.status ::
      (match api.response.body with
       | some b => [WAction.writeBody (goEncoderEncode (Json.obj b))]
       | none => []), ?_, ?_, ?_⟩
  · rw [handlerTrace, if_pos h]
    simp [List.append_assoc]
  · intro d hmem
    rcases List.mem_append.mp hmem with h1 | h2
    · obtain ⟨kv, -, hkv⟩ := List.mem_map.mp h1
      cases hkv
    · rcases List.mem_cons.mp h2 with heq | h3
      · cases heq
      · cases hb : api.response.body <;> rw [hb] at h3 <;> simp at h3
  · simp

/-- C5 (witness): the delay-placement theorem at the concrete endpoint
`slowApi` with `delay = 250`. -/
theorem c5_delay_after_write_witness :
    ∃ pre, handlerTrace slowApi = pre ++ [WAction.sleep slowApi.delay]
      ∧ (∀ d, WAction.sleep d ∉ pre)
      ∧ WAction.writeStatus slowApi.response.status ∈ pre :=
  c5_delay_after_write slowApi (by decide)

/-- C7: the HTTP-visible response of a dispatch is the same with zero
observers, with any observer list, and with an observer that raises on
every `notify` call — observer presence and observer failure never change
the served response (the Notifier catches observer errors). -/
theorem c7_observer_transparent (reg : List (String × ApiFormat)) (obs : List Observer)
    (m u : String) :
    (dispatchWithObservers reg obs m u).1 = serve reg m u
    ∧ (dispatchWithObservers reg [] m u).1 = serve reg m u
    ∧ (dispatchWithObservers reg
        (obs ++ ([fun _ => Except.error "observer failure"] : List Observer)) m u).1
        = serve reg m u :=
  ⟨rfl, rfl, rfl⟩

/-- C8: the listen address built at line 67, `fmt.Sprintf(":%s", port)`
with `port : *int`, is `:%!s(*int=0x...)` for every pointer rendering —
never of the form `":<decimal port>"`, so the configured port is never
bound. -/
theorem c8_listen_addr_never_port (ptrHex : List Char) :
    ¬ isPortForm (listenAddrChars ptrHex) := by
  rintro ⟨ds, heq, -, hdig⟩
  have hdata : "%!s(*int=".data = ['%', '!', 's', '(', '*', 'i', 'n', 't', '='] := rfl
  rw [listenAddrChars, badVerbSIntPtr, hdata] at heq
  have hds : ds = '%' :: ('!' :: 's' :: '(' :: '*' :: 'i' :: 'n' :: 't' :: '=' :: (ptrHex ++ [')'])) := by
    injection heq with h1 h2
    exact h2.symm
  have := hdig '%' (by rw [hds]; exact List.mem_cons_self _ _)
  revert this
  decide

/-- C8 (witness): the address theorem at a concrete pointer rendering. -/
theorem c8_listen_addr_never_port_witness :
    ¬ isPortForm (listenAddrChars "0xc0000140a0".data) :=
  c8_listen_addr_never_port _

/-- C9: when `delay ≤ 0` — including negative decoded values — the guard
`if api.Delay > 0` fails and the handler trace contains no sleep action at
all. -/
theorem c9_no_sleep_nonpos_delay (api : ApiFormat) (h : api.delay ≤ 0) :
    ∀ d, WAction.sleep d ∉ handlerTrace api := by
  intro d hmem
  rw [handlerTrace, if_neg (by omega), List.append_nil] at hmem
  rcases List.mem_append.mp hmem with hhd | hbody
  · rcases List.mem_append.mp hhd with hset | hstat
    · obtain ⟨kv, -, hkv⟩ := List.mem_map.mp hset
      cases hkv
    · simp at hstat
  · cases hb : api.response.body <;> rw [hb] at hbody <;> simp at hbody

/-- C9 (witness): the no-sleep theorem at the concrete endpoint
`negDelayApi` with `delay = -5`, evaluated at the sleep duration `-5`
itself. -/
theorem c9_no_sleep_nonpos_delay_witness :
    WAction.sleep (-5) ∉ handlerTrace negDelayApi :=
  c9_no_sleep_nonpos_delay negDelayApi (by decide) (-5)

/-- C3: for every registered endpoint and matching request, the response
status equals `response.status`, the headers contain every configured
header name mapped to the `fmt.Sprint` rendering of its value (header
names are distinct, as they come from a Go map), and when `response.body`
is non-nil the written body bytes decode back — by the same JSON
encoding — to exactly the configured body value. -/
theorem c3_hit_response_matches_config (reg : List (String × ApiFormat)) (m u : String)
    (api : ApiFormat) (h : lookupReg reg m u = some api)
    (hnd : (api.response.headers.map Prod.fst).Nodup) :
    (serve reg m u).status = api.response.status
    ∧ (∀ k v, (k, v) ∈ api.response.headers → (k, fmtSprint v) ∈ (serve reg m u).headers)
    ∧ (∀ b, api.response.body = some b →
        decodeJson (serve reg m u).body = some (Json.obj b)) := by
  rw [serve_hit reg m u api h, respond_eq]
  refine ⟨rfl, ?_, ?_⟩
  · intro k v hmem
    exact mem_foldl_headerSet api.response.headers k v hmem hnd []
  · intro b hb
    rw [hb]
    exact decodeJson_goEncode (Json.obj b)

/-- C3 (witness): the hit-response theorem at the spec's §8 example —
registry `[("GET /ping", pingApi)]`, request `GET /ping`. -/
theorem c3_hit_response_matches_config_witness :
    (serve pingReg "GET" "/ping").status = pingApi.response.status
    ∧ (∀ k v, (k, v) ∈ pingApi.response.headers
        → (k, fmtSprint v) ∈ (serve pingReg "GET" "/ping").headers)
    ∧ (∀ b, pingApi.response.body = some b →
        decodeJson (serve pingReg "GET" "/ping").body = some (Json.obj b)) :=
  c3_hit_response_matches_config pingReg "GET" "/ping" pingApi rfl (by decide)

/-- C4: the handler performs its steps in the claimed order — the trace
decomposes as the header-set actions (one per configured header, with the
`fmt.Sprint` rendering), then the status write, then a remainder that
contains a body write iff the body is non-nil (and then only the encoder
output), and no header set occurs after the status write. -/
theorem c4_handler_step_order (api : ApiFormat) :
    ∃ hs rest,
      handlerTrace api = hs ++ WAction.writeStatus api.response.status :: rest
      ∧ hs = api.response.headers.map (fun kv => WAction.setHeader kv.1 (fmtSprint kv.2))
      ∧ ((∃ bs, WAction.writeBody bs ∈ rest) ↔ api.response.body ≠ none)
      ∧ (∀ b, api.response.body = some b →
          WAction.writeBody (goEncoderEncode (Json.obj b)) ∈ rest)
      ∧ (∀ k v, WAction.setHeader k v ∉ rest) := by
  refine ⟨api.response.headers.map (fun kv => WAction.setHeader kv.1 (fmtSprint kv.2)),
    (match api.response.body with
     | some b => [WAction.writeBody (goEncoderEncode (Json.obj b))]
     | none => [])
    ++ (if api.delay > 0 then [WAction.sleep api.delay] else []), ?_, rfl, ?_, ?_, ?_⟩
  · rw [handlerTrace]
    simp [List.append_assoc]
  · cases hb : api.response.body <;> split_ifs <;> simp
  · intro b hb
    rw [hb]
    simp
  · intro k v hmem
    rcases List.mem_append.mp hmem with h1 | h2
    · cases hb : api.response.body <;> rw [hb] at h1 <;> simp at h1
    · split_ifs at h2 <;> simp at h2

/-- C6 (counterexample): with the spec's §8 registry (`GET /ping`
registered), the request `POST /ping` matches no registered endpoint,
yet the response status is 405 Method Not Allowed — `ServeMux` answers a
method mismatch with 405 and an `Allow` header, not the claimed default
404. -/
theorem c6_counterexample :
    (serve pingReg "POST" "/ping").status = 405
    ∧ (serve pingReg "POST" "/ping").status ≠ 404
    ∧ ("Allow", "GET") ∈ (serve pingReg "POST" "/ping").headers := by
  refine ⟨rfl, by decide, ?_⟩
  exact List.mem_cons_self _ _

/-- C6 (amended): for a request that no registered endpoint serves —
unmatched even after `ServeMux`'s rule that a `GET` pattern also serves
`HEAD` (so for a `HEAD` miss even the `GET` pattern is absent) — the
response is the default 404 not-found response when the path is
registered under no method at all, and 405 Method Not Allowed with an
`Allow` header listing the path's methods when it is; in both cases no
handler runs and the modelled dispatch emits exactly one
`request.not_found` event carrying `{method, url}` and no
`request.started` or `request.handled` event. -/
theorem c6_miss_amended (reg : List (String × ApiFormat)) (m u : String)
    (h : muxFind reg m u = none) :
    (methodsFor reg u = [] → serve reg m u = notFoundResponse)
    ∧ (methodsFor reg u ≠ [] →
        (serve reg m u).status = 405
        ∧ ("Allow", allowValue (methodsFor reg u)) ∈ (serve reg m u).headers)
    ∧ (m = "HEAD" → lookupReg reg "GET" u = none)
    ∧ dispatchEvents reg m u = [⟨"request.not_found", [("method", m), ("url", u)], false⟩]
    ∧ ((dispatchEvents reg m u).countP (fun e => e.name = "request.not_found") = 1)
    ∧ ((dispatchEvents reg m u).countP (fun e => e.name = "request.started") = 0)
    ∧ ((dispatchEvents reg m u).countP (fun e => e.name = "request.handled") = 0) := by
  have hev : dispatchEvents reg m u
      = [⟨"request.not_found", [("method", m), ("url", u)], false⟩] := by
    simp only [dispatchEvents, h]
  refine ⟨?_, ?_, ?_, hev, ?_, ?_, ?_⟩
  · intro hnone
    rw [serve_unmatched reg m u h, if_pos hnone]
  · intro hsome
    rw [serve_unmatched reg m u h, if_neg hsome]
    exact ⟨rfl, List.mem_cons_self _ _⟩
  · intro hm
    rw [muxFind] at h
    cases hl : lookupReg reg m u with
    | some api => rw [hl] at h; cases h
    | none =>
      rw [hl, if_pos hm] at h
      exact h
  · rw [hev]; rfl
  · rw [hev]; rfl
  · rw [hev]; rfl

/-- C6 (witness): the amended theorem at two concrete misses — a path
registered under no method (`POST /ping` on the empty registry, 404) and
a path registered under another method only (`POST /ping` against
`GET /ping`, 405 with `Allow: GET`). -/
theorem c6_miss_amended_witness :
    (serve [] "POST" "/ping" = notFoundResponse
      ∧ dispatchEvents [] "POST" "/ping"
          = [⟨"request.not_found", [("method", "POST"), ("url", "/ping")], false⟩])
    ∧ ((serve pingReg "POST" "/ping").status = 405
      ∧ ("Allow", allowValue (methodsFor pingReg "/ping"))
          ∈ (serve pingReg "POST" "/ping").headers) := by
  constructor
  · have h := c6_miss_amended [] "POST" "/ping" rfl
    exact ⟨h.1 rfl, h.2.2.2.1⟩
  · exact (c6_miss_amended pingReg "POST" "/ping" rfl).2.1 (by decide)

/-- C10: when the body is non-nil, the body bytes written are exactly the
JSON encoding of the body followed by one newline (the convention of
`json.NewEncoder(w).Encode`), and in particular differ from the bare JSON
text. -/
theorem c10_body_trailing_newline (api : ApiFormat) (b : List (String × Json))
    (h : api.response.body = some b) :
    (respond api).body = encodeJson (Json.obj b) ++ ['\n']
    ∧ (respond api).body ≠ encodeJson (Json.obj b) := by
  have h1 : (respond api).body = encodeJson (Json.obj b) ++ ['\n'] := by
    rw [respond_eq, h]
    rfl
  refine ⟨h1, ?_⟩
  rw [h1]
  intro heq
  have hlen := congrArg List.length heq
  simp at hlen

/-- C10 (witness): the trailing-newline theorem at the `/ping` endpoint
with body `{"ok": true}`. -/
theorem c10_body_trailing_newline_witness :
    (respond pingApi).body = encodeJson (Json.obj [("ok", Json.bool true)]) ++ ['\n']
    ∧ (respond pingApi).body ≠ encodeJson (Json.obj [("ok", Json.bool true)]) :=
  c10_body_trailing_newline pingApi [("ok", Json.bool true)] rfl

/-- C4 (witness): the step-order theorem at the `/ping` endpoint. -/
theorem c4_handler_step_order_witness :
    ∃ hs rest,
      handlerTrace pingApi = hs ++ WAction.writeStatus pingApi.response.status :: rest
      ∧ hs = pingApi.response.headers.map (fun kv => WAction.setHeader kv.1 (fmtSprint kv.2))
      ∧ ((∃ bs, WAction.writeBody bs ∈ rest) ↔ pingApi.response.body ≠ none)
      ∧ (∀ b, pingApi.response.body = some b →
          WAction.writeBody (goEncoderEncode (Json.obj b)) ∈ rest)
      ∧ (∀ k v, WAction.setHeader k v ∉ rest) :=
  c4_handler_step_order pingApi

/-- C7 (witness): observer transparency at the `/ping` registry. -/
theorem c7_observer_transparent_witness :
    (dispatchWithObservers pingReg [] "GET" "/ping").1 = serve pingReg "GET" "/ping"
    ∧ (dispatchWithObservers pingReg [] "GET" "/ping").1 = serve pingReg "GET" "/ping"
    ∧ (dispatchWithObservers pingReg
        ([] ++ ([fun _ => Except.error "observer failure"] : List Observer)) "GET" "/ping").1
        = serve pingReg "GET" "/ping" :=
  c7_observer_transparent pingReg [] "GET" "/ping"

end MockServer
